import Mathlib

/-!
Verification of the incremental vector-indexing pipeline of the
Realestate-llm-pipeline repository.

The development is a shallow embedding of the Python sources:

- `PropertyVectorsModel` (src/databases/db_models/PropertyVectorsModel.py):
  `PropRecord`, `checkProperty`, `acceptProperty`, `validateRecord`.
- `Milvus_VectorDatabase.insert_properties` and `get_property_ids`
  (src/databases/milvus/milvus.py): `insert_properties`, `get_property_ids`.
- `EmbeddingService.encode`, `encode_batch`, `_process_batch_parallel`
  (src/helpers/embedding_service/EmbeddingService.py): `encode`, `encode_batch`.
- `PropertyVectorBuilder.transform_properties` and `process_store_to_vdb`
  (src/etl/vectors_builder/real_estate_vector_processor.py).

Python floats are modelled as rationals, Python dicts of fixed shape as
structures, and network / provider effects as explicit oracle parameters.
-/

set_option maxRecDepth 10000

/-! ## Records

The shape of a property record handed to the vector-store write path.
String fields mirror the `str` fields of `PropertyVectorsModel`; numeric
fields are rationals (floats) or integers as in the source; the three
optional fields are `Option`-valued exactly like their `Optional[...]`
annotations. -/

structure PropRecord where
  property_id : String
  source : String
  url : String
  location : String
  embedding : List ℚ
  text : String
  title : String
  property_type : String
  listing_type : String
  price_egp : ℚ
  bedrooms : Int
  bathrooms : Int
  area_sqm : ℚ
  floor_number : Option Int := some 0
  latitude : Option ℚ := none
  longitude : Option ℚ := none
deriving DecidableEq, Repr

/-! ## Record validator (PropertyVectorsModel) -/

/-- Python `str.strip()` on the character list: drop whitespace from
both ends. -/
def stripChars (cs : List Char) : List Char :=
  ((cs.dropWhile Char.isWhitespace).reverse.dropWhile Char.isWhitespace).reverse

/-- Python `str.strip()`. -/
def stripStr (s : String) : String := ⟨stripChars s.data⟩

/-- Character class `[a-z]` of the `property_id` regex. -/
def isLowerAlpha (c : Char) : Bool := decide ('a' ≤ c) && decide (c ≤ 'z')

/-- Character class `[a-f0-9]`, which is also the character set
`'0123456789abcdef'` used by `validate_property_id_format`. -/
def isLowerHex (c : Char) : Bool :=
  (decide ('0' ≤ c) && decide (c ≤ '9')) || (decide ('a' ≤ c) && decide (c ≤ 'f'))

/-- The `pattern="^[a-z]+_[a-f0-9]{16}$"` constraint on `property_id`.
A full match is: a nonempty run of lowercase letters, one underscore,
then exactly 16 lowercase hex digits, so the string has length at least
18, its last 16 characters are hex digits, the character before them is
the underscore, and everything before that is lowercase letters. -/
def patternCheck (s : String) : Bool :=
  let cs := s.data
  let n := cs.length
  decide (17 < n) && (cs.take (n - 17)).all isLowerAlpha
    && (cs.getD (n - 17) ' ' == '_') && (cs.drop (n - 16)).all isLowerHex

/-- `validate_property_id_format`: `rsplit('_', 1)` the id at its last
underscore; the source part must have at least 2 characters, the hash
part exactly 16 characters, all lowercase hexadecimal. -/
def pidFormatCheck (s : String) : Bool :=
  let cs := s.data
  if cs.contains '_' then
    let hashPart := (cs.reverse.takeWhile (fun c => !(c == '_'))).reverse
    let srcPart := cs.take (cs.length - hashPart.length - 1)
    decide (2 ≤ srcPart.length) && (hashPart.length == 16) && hashPart.all isLowerHex
  else false

/-- Sum of squares of the embedding entries (the radicand of
`magnitude = sum(x**2 for x in v) ** 0.5`). -/
def sumSq (v : List ℚ) : ℚ := (v.map (fun x => x * x)).sum

/-- Embedding checks: the field constraint
`Field(..., min_length=384, max_length=384*4)` together with
`validate_embedding`, which re-checks `384 <= len(v) <= 384*4`, checks
that all entries are numbers (trivially true in the rational model), and
rejects a zero magnitude.  For a nonnegative radicand `q`, `sqrt q = 0`
iff `q = 0`, so the Python test `magnitude == 0` is the test
`sumSq v = 0`. -/
def embeddingCheck (v : List ℚ) : Bool :=
  decide (384 ≤ v.length) && decide (v.length ≤ 384 * 4) && decide (sumSq v ≠ 0)

/-- A required string field: pydantic length bounds (applied to the
whitespace-stripped value, because of `str_strip_whitespace = True`)
plus the `validate_required_strings` non-emptiness check. -/
def strField (s : String) (lo hi : Nat) : Bool :=
  decide (lo ≤ s.length) && decide (s.length ≤ hi) && decide (stripStr s ≠ "")

/-- All declarative checks of `PropertyVectorsModel`, applied to an
already-stripped record (see `acceptProperty`). -/
def checkProperty (r : PropRecord) : Bool :=
  strField r.property_id 18 28 && patternCheck r.property_id && pidFormatCheck r.property_id
    && strField r.source 1 200
    && strField r.url 1 500
    && strField r.location 2 200
    && embeddingCheck r.embedding
    && strField r.text 10 12000
    && strField r.title 3 500
    && strField r.property_type 1 100
    && decide (r.listing_type.length ≤ 50)
    && decide (1000 < r.price_egp) && decide (r.price_egp < 1000000000)
    && decide (0 ≤ r.bedrooms) && decide (r.bedrooms ≤ 25)
    && decide (0 ≤ r.bathrooms) && decide (r.bathrooms ≤ 15)
    && decide (9 < r.area_sqm) && decide (r.area_sqm ≤ 10000)
    && (match r.floor_number with
        | none => true
        | some f => decide (-2 ≤ f) && decide (f ≤ 100))
    && (match r.latitude with
        | none => true
        | some x => decide (22 ≤ x) && decide (x ≤ 32))
    && (match r.longitude with
        | none => true
        | some x => decide (25 ≤ x) && decide (x ≤ 37))

/-- `str_strip_whitespace = True`: every string field is stripped before
the constraints run and in the validated model. -/
def stripRecord (r : PropRecord) : PropRecord :=
  { r with
    property_id := stripStr r.property_id
    source := stripStr r.source
    url := stripStr r.url
    location := stripStr r.location
    text := stripStr r.text
    title := stripStr r.title
    property_type := stripStr r.property_type
    listing_type := stripStr r.listing_type }

/-- `PropertyVectorsModel(**prop)` succeeds exactly when this is `true`. -/
def acceptProperty (r : PropRecord) : Bool := checkProperty (stripRecord r)

/-- Constructing the model either yields the validated (stripped) record
or raises a `ValidationError`.  The pydantic error text is not
modelled; no claim inspects it. -/
def validateRecord (r : PropRecord) : Except String PropRecord :=
  if acceptProperty r then .ok (stripRecord r) else .error "ValidationError"

/-- A fully valid concrete record, used as a base point for boundary
claims. -/
def sampleRec : PropRecord :=
  { property_id := "aqarmap_0123456789abcdef"
    source := "aqarmap"
    url := "https://example.com/p/1"
    location := "cairo"
    embedding := List.replicate 384 1
    text := "three bedroom apartment in cairo"
    title := "apartment"
    property_type := "apartment"
    listing_type := "sale"
    price_egp := 500000
    bedrooms := 3
    bathrooms := 2
    area_sqm := 120
    floor_number := some 2
    latitude := some 30
    longitude := some 31 }

theorem sumSq_cons (x : ℚ) (v : List ℚ) : sumSq (x :: v) = x * x + sumSq v := by
  simp [sumSq]

theorem sumSq_nonneg (v : List ℚ) : 0 ≤ sumSq v := by
  induction v with
  | nil => simp [sumSq]
  | cons x v ih => rw [sumSq_cons]; exact add_nonneg (mul_self_nonneg x) ih

theorem sumSq_eq_zero_iff (v : List ℚ) : sumSq v = 0 ↔ ∀ x ∈ v, x = 0 := by
  induction v with
  | nil => simp [sumSq]
  | cons x v ih =>
    rw [sumSq_cons, add_eq_zero_iff_of_nonneg (mul_self_nonneg x) (sumSq_nonneg v)]
    simp [mul_self_eq_zero, ih]

theorem sumSq_replicate_one (n : Nat) : sumSq (List.replicate n 1) = n := by
  induction n with
  | zero => simp [sumSq]
  | succ n ih => rw [List.replicate_succ, sumSq_cons, ih]; push_cast; ring

theorem embeddingCheck_replicate_one (n : Nat) (h1 : 384 ≤ n) (h2 : n ≤ 1536) :
    embeddingCheck (List.replicate n 1) = true := by
  simp only [embeddingCheck, List.length_replicate, Bool.and_eq_true, decide_eq_true_eq]
  refine ⟨⟨h1, by omega⟩, ?_⟩
  rw [sumSq_replicate_one]
  exact_mod_cast Nat.cast_ne_zero.mpr (by omega)

theorem sampleRec_accepted : acceptProperty sampleRec = true := by
  have h : embeddingCheck (List.replicate 384 1) = true :=
    embeddingCheck_replicate_one 384 (by omega) (by omega)
  simp only [acceptProperty, checkProperty, stripRecord, sampleRec]
  rw [h]
  decide

/-- Like `sampleRec` but with a 500-dimensional embedding; also accepted
by the validator. -/
def sampleRec500 : PropRecord := { sampleRec with embedding := List.replicate 500 1 }

theorem sampleRec500_accepted : acceptProperty sampleRec500 = true := by
  have h : embeddingCheck (List.replicate 500 1) = true :=
    embeddingCheck_replicate_one 500 (by omega) (by omega)
  simp only [sampleRec500, acceptProperty, checkProperty, stripRecord, sampleRec]
  rw [h]
  decide

/-- Claim C8: starting from any record the validator accepts, setting
`area_sqm` to 10 keeps it accepted and setting `area_sqm` to 9 makes it
rejected: the `area_sqm` floor is exclusive at 9 and inclusive at 10,
matching `Field(..., gt=9, le=10000)`. -/
theorem validator_area_boundary (r : PropRecord) (h : acceptProperty r = true) :
    acceptProperty { r with area_sqm := 10 } = true
      ∧ acceptProperty { r with area_sqm := 9 } = false := by
  unfold acceptProperty checkProperty stripRecord at h ⊢
  simp only [Bool.and_eq_true, decide_eq_true_eq] at h ⊢
  have ha1 : (9 : ℚ) < 10 := by norm_num
  have ha2 : (10 : ℚ) ≤ 10000 := by norm_num
  have ha3 : ¬ (9 : ℚ) < 9 := by norm_num
  constructor
  · tauto
  · rw [Bool.eq_false_iff]
    intro hc
    simp only [Bool.and_eq_true, decide_eq_true_eq] at hc
    tauto

/-- Witness for `validator_area_boundary` at the concrete record
`sampleRec`. -/
theorem validator_area_boundary_witness :
    acceptProperty sampleRec = true
      ∧ (acceptProperty { sampleRec with area_sqm := 10 } = true
          ∧ acceptProperty { sampleRec with area_sqm := 9 } = false) :=
  ⟨sampleRec_accepted, validator_area_boundary sampleRec sampleRec_accepted⟩

/-- Claim C7: a record whose embedding entries are all zero is rejected
by the validator, whatever the rest of the record is (in particular even
when every other field is valid and the embedding length is accepted):
the zero-magnitude check in `validate_embedding` fails. -/
theorem validator_rejects_zero_vector (r : PropRecord)
    (hz : ∀ x ∈ r.embedding, x = 0) : acceptProperty r = false := by
  rw [Bool.eq_false_iff]
  intro hc
  unfold acceptProperty checkProperty stripRecord embeddingCheck at hc
  simp only [Bool.and_eq_true, decide_eq_true_eq] at hc
  have h0 : sumSq r.embedding = 0 := (sumSq_eq_zero_iff r.embedding).mpr hz
  tauto

/-- Witness for `validator_rejects_zero_vector`: the all-zero embedding
of accepted length 384 on an otherwise fully valid record is rejected. -/
theorem validator_rejects_zero_vector_witness :
    acceptProperty { sampleRec with embedding := List.replicate 384 0 } = false :=
  validator_rejects_zero_vector _ (fun _ hx => List.eq_of_mem_replicate hx)

/-- Counterexample to claim C6: the validator accepts records whose
embedding lengths are 384 and 500 alike (all other fields equal and
valid), so there is no single configured dimension d such that every
record whose embedding length differs from d is rejected: the check is
the range 384 ≤ len ≤ 1536 of `validate_embedding`, not an exact
dimension. -/
theorem validator_accepts_two_lengths_cex :
    acceptProperty sampleRec = true ∧ acceptProperty sampleRec500 = true
      ∧ sampleRec.embedding.length = 384 ∧ sampleRec500.embedding.length = 500 :=
  ⟨sampleRec_accepted, sampleRec500_accepted, by decide, by decide⟩

/-- Claim C6 as amended: on a record the validator accepts, replacing the
embedding keeps the record accepted exactly when the new embedding's
length stays in the range [384, 1536] (and its magnitude is nonzero);
a length outside that range is rejected.  The configured dimension is
never consulted. -/
theorem validator_embedding_range (r : PropRecord) (v : List ℚ)
    (h : acceptProperty r = true) :
    (384 ≤ v.length → v.length ≤ 1536 → sumSq v ≠ 0 →
        acceptProperty { r with embedding := v } = true)
      ∧ (v.length < 384 ∨ 1536 < v.length →
        acceptProperty { r with embedding := v } = false) := by
  unfold acceptProperty checkProperty stripRecord embeddingCheck at h ⊢
  simp only [Bool.and_eq_true, decide_eq_true_eq] at h ⊢
  constructor
  · intro h1 h2 h3
    have h2' : v.length ≤ 384 * 4 := by omega
    tauto
  · intro hout
    rw [Bool.eq_false_iff]
    intro hc
    simp only [Bool.and_eq_true, decide_eq_true_eq] at hc
    have : ¬ (384 ≤ v.length ∧ v.length ≤ 384 * 4) := by omega
    tauto

/-- Witness for `validator_embedding_range`: a 400-dimensional nonzero
embedding is accepted, a 100-dimensional one is rejected. -/
theorem validator_embedding_range_witness :
    acceptProperty { sampleRec with embedding := List.replicate 400 1 } = true
      ∧ acceptProperty { sampleRec with embedding := List.replicate 100 1 } = false := by
  constructor
  · exact (validator_embedding_range sampleRec (List.replicate 400 1) sampleRec_accepted).1
      (by simp) (by simp)
      (by norm_num [sumSq_replicate_one])
  · exact (validator_embedding_range sampleRec (List.replicate 100 1) sampleRec_accepted).2
      (by simp)

/-! ## Embedding client (EmbeddingService)

Network effects of a single `requests.post` to `/api/embeddings` are an
explicit outcome: either the request raised (transport error / timeout),
or it returned a status code and a parsed embedding body.  The float
post-processing `np.nan_to_num` is the identity in the rational model
(rationals have no NaN) and `_normalize_embedding` is kept as an
uninterpreted parameter `normFn`, since no claim under study depends on
the numeric value of a successfully encoded vector. -/

inductive EncodeOutcome where
  | transportErr : EncodeOutcome
  | httpStatus (code : Nat) (body : List ℚ) : EncodeOutcome
deriving DecidableEq, Repr

/-- `np.zeros(self.embedding_dim, dtype=np.float32)`. -/
def zeroVec (dim : Nat) : List ℚ := List.replicate dim 0

/-- `EmbeddingService.encode`: the whole body is inside `try`; a
non-200 status raises, and the `except` clause catches every exception,
logs it and returns the zero vector of the configured dimension.  The
`Except` result type records whether an exception escapes to the
caller: no branch produces `.error`. -/
def encode (normFn : List ℚ → List ℚ) (normalize : Bool) (dim : Nat)
    (outcome : EncodeOutcome) : Except String (List ℚ) :=
  match outcome with
  | .transportErr => .ok (zeroVec dim)
  | .httpStatus code body =>
      if code ≠ 200 then .ok (zeroVec dim)
      else .ok (if normalize then normFn body else body)

/-- Counterexample to claim C5: when the request to the provider fails
(transport error) or returns a non-200 status, `encode` does not
re-raise; it returns the zero vector of the configured dimension as a
substitute value.  Here at dimension 768 with normalization on. -/
theorem encode_error_no_reraise_cex :
    encode id true 768 EncodeOutcome.transportErr = Except.ok (zeroVec 768)
      ∧ encode id true 768 (EncodeOutcome.httpStatus 500 []) = Except.ok (zeroVec 768) :=
  ⟨rfl, rfl⟩

/-- Claim C5 as amended: on any transport or provider error (request
raises, or non-200 status), `encode` logs and returns the zero vector of
the configured dimension; the failure is swallowed, never re-raised. -/
theorem encode_error_returns_zero (normFn : List ℚ → List ℚ) (normalize : Bool)
    (dim : Nat) (outcome : EncodeOutcome)
    (hfail : outcome = EncodeOutcome.transportErr
      ∨ ∃ code body, outcome = EncodeOutcome.httpStatus code body ∧ code ≠ 200) :
    encode normFn normalize dim outcome = Except.ok (zeroVec dim) := by
  rcases hfail with h | ⟨code, body, h, hcode⟩
  · rw [h]; rfl
  · rw [h]; simp [encode, hcode]

/-- Witness for `encode_error_returns_zero` at a concrete failing
outcome. -/
theorem encode_error_returns_zero_witness :
    encode id false 768 (EncodeOutcome.httpStatus 404 [1, 2]) = Except.ok (zeroVec 768) :=
  encode_error_returns_zero id false 768 _ (Or.inr ⟨404, [1, 2], rfl, by omega⟩)

/-! ## Batch splitting

Both `insert_properties` and `encode_batch` walk their input in slices
`l[i : i + batchSize]`.  `chunkList` is that slicing; it uses an
explicit structural fuel (the list length) so that it evaluates by
kernel reduction.  A `batchSize` of zero would make Python's
`range(0, n, 0)` raise `ValueError`; every theorem below assumes
`batchSize ≠ 0`. -/

def chunkListAux (n : Nat) : Nat → List α → List (List α)
  | _, [] => []
  | 0, _ :: _ => []
  | fuel + 1, x :: xs =>
      if n = 0 then [] else ((x :: xs).take n) :: chunkListAux n fuel ((x :: xs).drop n)

def chunkList (n : Nat) (l : List α) : List (List α) := chunkListAux n l.length l

theorem chunkListAux_fuel (n : Nat) :
    ∀ (f1 : Nat) (l : List α) (f2 : Nat), l.length ≤ f1 → l.length ≤ f2 →
      chunkListAux n f1 l = chunkListAux n f2 l := by
  intro f1
  induction f1 with
  | zero =>
    intro l f2 h1 _
    have : l = [] := List.eq_nil_of_length_eq_zero (Nat.le_zero.mp h1)
    subst this
    cases f2 <;> rfl
  | succ f ih =>
    intro l f2 h1 h2
    cases l with
    | nil => cases f2 <;> rfl
    | cons x xs =>
      cases f2 with
      | zero => simp at h2
      | succ f2' =>
        simp only [chunkListAux]
        by_cases hn : n = 0
        · simp [hn]
        · simp only [hn, if_false]
          congr 1
          apply ih
          · simp only [List.length_drop, List.length_cons] at h1 ⊢
            omega
          · simp only [List.length_drop, List.length_cons] at h2 ⊢
            omega

theorem chunkList_nil (n : Nat) : chunkList n ([] : List α) = [] := rfl

theorem chunkList_cons (n : Nat) (hn : n ≠ 0) (x : α) (xs : List α) :
    chunkList n (x :: xs) = (x :: xs).take n :: chunkList n ((x :: xs).drop n) := by
  unfold chunkList
  simp only [List.length_cons, chunkListAux, hn, if_false]
  congr 1
  apply chunkListAux_fuel
  · simp only [List.length_drop, List.length_cons]
    omega
  · simp only [List.length_drop, List.length_cons]
    omega

theorem chunkList_join (n : Nat) (hn : n ≠ 0) (l : List α) :
    (chunkList n l).flatten = l := by
  have key : ∀ (k : Nat) (l : List α), l.length ≤ k → (chunkList n l).flatten = l := by
    intro k
    induction k with
    | zero =>
      intro l h
      have : l = [] := List.eq_nil_of_length_eq_zero (Nat.le_zero.mp h)
      subst this; rfl
    | succ k ih =>
      intro l h
      cases l with
      | nil => rfl
      | cons x xs =>
        rw [chunkList_cons n hn, List.flatten_cons, ih]
        · exact List.take_append_drop n (x :: xs)
        · simp only [List.length_drop, List.length_cons] at *
          omega
  exact key l.length l le_rfl

theorem chunkList_ne_nil (n : Nat) (hn : n ≠ 0) (l : List α) :
    ∀ c ∈ chunkList n l, c ≠ [] := by
  have key : ∀ (k : Nat) (l : List α), l.length ≤ k → ∀ c ∈ chunkList n l, c ≠ [] := by
    intro k
    induction k with
    | zero =>
      intro l h
      have : l = [] := List.eq_nil_of_length_eq_zero (Nat.le_zero.mp h)
      subst this; simp [chunkList_nil]
    | succ k ih =>
      intro l h c hc
      cases l with
      | nil => simp [chunkList_nil] at hc
      | cons x xs =>
        rw [chunkList_cons n hn] at hc
        rcases List.mem_cons.mp hc with h1 | h1
        · subst h1
          cases n with
          | zero => exact absurd rfl hn
          | succ m => simp
        · refine ih _ ?_ c h1
          simp only [List.length_drop, List.length_cons] at *
          omega
  exact key l.length l le_rfl

/-! ## Vector store upserter (Milvus_VectorDatabase.insert_properties)

The Milvus client call `self.client.upsert(...)` is an oracle taking the
0-based batch index and the submitted (validated) records, and returning
either the result dict's optional `insert_count` (`Except.ok`) or a
raised exception with its message (`Except.error`).  The source reads
`result.get('insert_count', len(batch_validated))`, so a missing count
defaults to the submitted size. -/

structure FailedRec where
  property_id : String
  error : String
deriving DecidableEq, Repr

structure InsertSummary where
  total : Nat
  inserted : Nat
  failed : Nat
  failed_records : List FailedRec
deriving DecidableEq, Repr

/-- The records of a batch that fail `PropertyVectorsModel` validation,
as `{'property_id': ..., 'error': ...}` entries, in batch order. -/
def valFailures (batch : List PropRecord) : List FailedRec :=
  batch.filterMap (fun p =>
    match validateRecord p with
    | .error e => some ⟨p.property_id, e⟩
    | .ok _ => none)

/-- `batch_validated`: the model dumps of the records that pass
validation, in batch order. -/
def batchValidated (batch : List PropRecord) : List PropRecord :=
  batch.filterMap (fun p => (validateRecord p).toOption)

/-- The `for i in range(0, len(properties), batch_size)` loop of
`insert_properties`: per batch, validate each record (appending
validation failures), and if any record validated, upsert the batch;
a raised upsert marks every validated record of the batch as failed
with the shared reason and the loop continues.  Returns
`(total_inserted, failed_records)`. -/
def insertLoop (upsert : Nat → List PropRecord → Except String (Option Nat)) :
    List (List PropRecord) → Nat → Nat × List FailedRec
  | [], _ => (0, [])
  | batch :: rest, i =>
    let rr := insertLoop upsert rest (i + 1)
    if batchValidated batch = [] then
      (rr.1, valFailures batch ++ rr.2)
    else
      match upsert i (batchValidated batch) with
      | .ok c => (c.getD (batchValidated batch).length + rr.1, valFailures batch ++ rr.2)
      | .error e =>
          (rr.1, valFailures batch
            ++ (batchValidated batch).map
                (fun q => ⟨q.property_id, "Insert failed: " ++ e⟩)
            ++ rr.2)

/-- `Milvus_VectorDatabase.insert_properties`. -/
def insert_properties (upsert : Nat → List PropRecord → Except String (Option Nat))
    (properties : List PropRecord) (batch_size : Nat) : InsertSummary :=
  if properties = [] then ⟨0, 0, 0, []⟩
  else
    ⟨properties.length,
     (insertLoop upsert (chunkList batch_size properties) 0).1,
     (insertLoop upsert (chunkList batch_size properties) 0).2.length,
     (insertLoop upsert (chunkList batch_size properties) 0).2⟩

theorem validated_plus_failures (b : List PropRecord) :
    (batchValidated b).length + (valFailures b).length = b.length := by
  induction b with
  | nil => rfl
  | cons p b ih =>
    by_cases h : acceptProperty p = true
    · simp only [batchValidated, valFailures, validateRecord, h, if_true,
        List.filterMap_cons, Except.toOption] at *
      simp only [List.length_cons]
      omega
    · simp only [Bool.not_eq_true] at h
      simp only [batchValidated, valFailures, validateRecord, h, Bool.false_eq_true,
        if_false, List.filterMap_cons, Except.toOption] at *
      simp only [List.length_cons]
      omega

theorem batchValidated_all_valid (b : List PropRecord)
    (h : ∀ p ∈ b, acceptProperty p = true) :
    batchValidated b = b.map stripRecord ∧ valFailures b = [] := by
  induction b with
  | nil => exact ⟨rfl, rfl⟩
  | cons p b ih =>
    have hp : acceptProperty p = true := h p (List.mem_cons_self p b)
    have ihh := ih (fun q hq => h q (List.mem_cons_of_mem p hq))
    simp only [batchValidated, valFailures, validateRecord, hp, if_true,
      List.filterMap_cons, Except.toOption] at *
    exact ⟨by rw [List.map_cons]; exact congrArg _ ihh.1, ihh.2⟩

theorem insertLoop_accounting (upsert : Nat → List PropRecord → Except String (Option Nat))
    (hcnt : ∀ i batch c, upsert i batch = Except.ok (some c) → c = batch.length) :
    ∀ (chunks : List (List PropRecord)) (i : Nat),
      (insertLoop upsert chunks i).1 + (insertLoop upsert chunks i).2.length
        = (chunks.map List.length).sum := by
  intro chunks
  induction chunks with
  | nil => intro i; rfl
  | cons b rest ih =>
    intro i
    have hvc := validated_plus_failures b
    have ihh := ih (i + 1)
    simp only [insertLoop, List.map_cons, List.sum_cons]
    by_cases hb : batchValidated b = []
    · simp only [hb, if_true, List.length_append]
      have : (batchValidated b).length = 0 := by rw [hb]; rfl
      omega
    · simp only [hb, if_false]
      cases hc : upsert i (batchValidated b) with
      | ok c =>
        cases c with
        | none => simp only [Option.getD, List.length_append]; omega
        | some c' =>
          have := hcnt i (batchValidated b) c' hc
          simp only [Option.getD, List.length_append]
          omega
      | error e =>
        simp only [List.length_append, List.length_map]
        omega

/-- Claim C10: whenever every successful upsert call reports an insert
count equal to the number of submitted records (or reports none, in
which case the code defaults to that number), the summary returned by
`insert_properties` satisfies `total = inserted + failed` and `failed`
is the length of `failed_records`: every input record is accounted for
exactly once. -/
theorem insert_properties_accounting
    (upsert : Nat → List PropRecord → Except String (Option Nat))
    (properties : List PropRecord) (batch_size : Nat)
    (hbs : batch_size ≠ 0)
    (hcnt : ∀ i batch c, upsert i batch = Except.ok (some c) → c = batch.length) :
    (insert_properties upsert properties batch_size).total
        = (insert_properties upsert properties batch_size).inserted
          + (insert_properties upsert properties batch_size).failed
      ∧ (insert_properties upsert properties batch_size).failed
        = (insert_properties upsert properties batch_size).failed_records.length := by
  unfold insert_properties
  by_cases hp : properties = []
  · simp [hp]
  · simp only [hp, if_false]
    refine ⟨?_, trivial⟩
    have h1 := insertLoop_accounting upsert hcnt (chunkList batch_size properties) 0
    have h2 : ((chunkList batch_size properties).map List.length).sum = properties.length := by
      conv_rhs => rw [← chunkList_join batch_size hbs properties]
      rw [List.length_flatten]
    omega

/-- A record whose (stripped) title is shorter than the 3-character
minimum; used to exercise the validation-failure path. -/
def badRec : PropRecord := { sampleRec with title := "x" }

/-- Witness for `insert_properties_accounting`: a two-record run with
batch size 1 where the upsert oracle always succeeds without reporting
an insert count. -/
theorem insert_properties_accounting_witness :
    (insert_properties (fun _ _ => Except.ok none) [sampleRec, badRec] 1).total
        = (insert_properties (fun _ _ => Except.ok none) [sampleRec, badRec] 1).inserted
          + (insert_properties (fun _ _ => Except.ok none) [sampleRec, badRec] 1).failed
      ∧ (insert_properties (fun _ _ => Except.ok none) [sampleRec, badRec] 1).failed
        = (insert_properties (fun _ _ => Except.ok none) [sampleRec, badRec] 1).failed_records.length :=
  insert_properties_accounting _ _ 1 (by omega) (by intro i batch c h; simp at h)

theorem insertLoop_cons (upsert : Nat → List PropRecord → Except String (Option Nat))
    (b : List PropRecord) (rest : List (List PropRecord)) (i : Nat) :
    insertLoop upsert (b :: rest) i
      = if batchValidated b = [] then
          ((insertLoop upsert rest (i + 1)).1,
           valFailures b ++ (insertLoop upsert rest (i + 1)).2)
        else
          match upsert i (batchValidated b) with
          | .ok c =>
              (c.getD (batchValidated b).length + (insertLoop upsert rest (i + 1)).1,
               valFailures b ++ (insertLoop upsert rest (i + 1)).2)
          | .error e =>
              ((insertLoop upsert rest (i + 1)).1,
               valFailures b
                 ++ (batchValidated b).map
                     (fun q => ⟨q.property_id, "Insert failed: " ++ e⟩)
                 ++ (insertLoop upsert rest (i + 1)).2) := rfl

theorem insertLoop_append (upsert : Nat → List PropRecord → Except String (Option Nat))
    (c2 : List (List PropRecord)) :
    ∀ (c1 : List (List PropRecord)) (i : Nat),
      insertLoop upsert (c1 ++ c2) i
        = ((insertLoop upsert c1 i).1 + (insertLoop upsert c2 (i + c1.length)).1,
           (insertLoop upsert c1 i).2 ++ (insertLoop upsert c2 (i + c1.length)).2) := by
  intro c1
  induction c1 with
  | nil => intro i; simp [insertLoop]
  | cons b c1 ih =>
    intro i
    have harith : i + 1 + c1.length = i + (c1.length + 1) := by omega
    rw [List.cons_append, insertLoop_cons, insertLoop_cons, ih (i + 1)]
    simp only [List.length_cons, harith]
    by_cases hb : batchValidated b = []
    · rw [if_pos hb, if_pos hb]
      simp [List.append_assoc]
    · rw [if_neg hb, if_neg hb]
      cases hc : upsert i (batchValidated b) with
      | ok c =>
        simp only [hc, Prod.mk.injEq, List.append_assoc, and_true]
        omega
      | error e =>
        simp [hc, List.append_assoc]

theorem insertLoop_all_ok (upsert : Nat → List PropRecord → Except String (Option Nat)) :
    ∀ (chunks : List (List PropRecord)) (i : Nat),
      (∀ c ∈ chunks, ∀ p ∈ c, acceptProperty p = true) →
      (∀ j, i ≤ j → j < i + chunks.length → ∀ b, upsert j b = Except.ok none) →
      insertLoop upsert chunks i = ((chunks.map List.length).sum, []) := by
  intro chunks
  induction chunks with
  | nil => intro i _ _; rfl
  | cons b rest ih =>
    intro i hv hok
    have hb := batchValidated_all_valid b (hv b (List.mem_cons_self b rest))
    have ihh := ih (i + 1) (fun c hc => hv c (List.mem_cons_of_mem b hc))
      (fun j h1 h2 bb => hok j (by omega) (by simp only [List.length_cons]; omega) bb)
    rw [insertLoop_cons, ihh]
    simp only [List.map_cons, List.sum_cons]
    by_cases hbe : batchValidated b = []
    · have hb0 : b = [] := by
        have h1 : (b.map stripRecord).length = 0 := by rw [← hb.1, hbe]; rfl
        have h2 : b.length = 0 := by simpa using h1
        exact List.length_eq_zero.mp h2
      subst hb0
      rw [if_pos hbe]
      simp [valFailures]
    · have hup : upsert i (batchValidated b) = Except.ok none :=
        hok i le_rfl (by simp only [List.length_cons]; omega) _
      rw [if_neg hbe]
      rw [hb.1] at hup
      simp [hup, hb.1, hb.2]

/-- Claim C4: if every record validates, the write-batches are
`pre ++ [ck] ++ post`, the upsert call for batch `ck` (index
`pre.length`) raises with message `e`, and every other upsert call
succeeds, then `insert_properties` marks exactly the records of `ck` as
failed, each with the shared reason `"Insert failed: " ++ e`, keeps
counting every record of the other batches as inserted, and still
returns a summary (the run is not aborted). -/
theorem insert_properties_batch_failure_isolation
    (upsert : Nat → List PropRecord → Except String (Option Nat))
    (properties : List PropRecord) (batch_size : Nat) (e : String)
    (pre post : List (List PropRecord)) (ck : List PropRecord)
    (hbs : batch_size ≠ 0) (hne : properties ≠ [])
    (hvalid : ∀ p ∈ properties, acceptProperty p = true)
    (hchunks : chunkList batch_size properties = pre ++ ck :: post)
    (hfail : ∀ b, upsert pre.length b = Except.error e)
    (hok : ∀ j b, j ≠ pre.length → upsert j b = Except.ok none) :
    (insert_properties upsert properties batch_size).inserted
        = (pre.map List.length).sum + (post.map List.length).sum
      ∧ (insert_properties upsert properties batch_size).inserted
        = properties.length - ck.length
      ∧ (insert_properties upsert properties batch_size).failed = ck.length
      ∧ (insert_properties upsert properties batch_size).failed_records
        = ck.map (fun p => ⟨(stripRecord p).property_id, "Insert failed: " ++ e⟩) := by
  have hjoin : (pre ++ ck :: post).flatten = properties := by
    rw [← hchunks]; exact chunkList_join batch_size hbs properties
  have hvalid' : ∀ c ∈ pre ++ ck :: post, ∀ p ∈ c, acceptProperty p = true := by
    intro c hc p hp
    exact hvalid p (by rw [← hjoin]; exact List.mem_flatten.mpr ⟨c, hc, hp⟩)
  have hckb := batchValidated_all_valid ck (hvalid' ck (by simp))
  have hckne : ck ≠ [] := by
    have h1 := chunkList_ne_nil batch_size hbs properties ck
    rw [hchunks] at h1
    exact h1 (by simp)
  have hckv_ne : ¬ batchValidated ck = [] := by
    rw [hckb.1]
    intro hcon
    exact hckne (by simpa using congrArg List.length hcon)
  have hpre : insertLoop upsert pre 0 = ((pre.map List.length).sum, []) := by
    apply insertLoop_all_ok upsert pre 0 (fun c hc => hvalid' c (List.mem_append_left _ hc))
    intro j h1 h2 b
    exact hok j b (by omega)
  have hpost : insertLoop upsert post (pre.length + 1) = ((post.map List.length).sum, []) := by
    apply insertLoop_all_ok upsert post (pre.length + 1)
      (fun c hc => hvalid' c (List.mem_append_right _ (List.mem_cons_of_mem ck hc)))
    intro j h1 h2 b
    exact hok j b (by omega)
  have hmid : insertLoop upsert (ck :: post) pre.length
      = ((post.map List.length).sum,
         ck.map (fun p => ⟨(stripRecord p).property_id, "Insert failed: " ++ e⟩)) := by
    rw [insertLoop_cons, hpost, if_neg hckv_ne]
    simp only [hfail, hckb.2, List.nil_append, List.append_nil, hckb.1, List.map_map]
    rfl
  have hloop : insertLoop upsert (pre ++ ck :: post) 0
      = ((pre.map List.length).sum + (post.map List.length).sum,
         ck.map (fun p => ⟨(stripRecord p).property_id, "Insert failed: " ++ e⟩)) := by
    rw [insertLoop_append upsert (ck :: post) pre 0]
    simp only [Nat.zero_add, hpre, hmid, List.nil_append]
  have hlen : properties.length
      = (pre.map List.length).sum + ck.length + (post.map List.length).sum := by
    rw [← hjoin, List.length_flatten]
    simp only [List.map_append, List.map_cons, List.sum_append, List.sum_cons]
    omega
  unfold insert_properties
  simp only [hne, if_false, hchunks, hloop]
  refine ⟨?_, ?_, ?_, ?_⟩ <;>
    first
      | trivial
      | omega
      | simp [List.length_map]

/-- Upsert oracle that raises (with message "boom") exactly on the
second batch (index 1) and succeeds elsewhere. -/
def upsertFailSecond : Nat → List PropRecord → Except String (Option Nat) :=
  fun j _ => if j = 1 then Except.error "boom" else Except.ok none

/-- Witness for `insert_properties_batch_failure_isolation`: three
valid records in three batches of size 1, with batch 2 of 3 failing. -/
theorem insert_properties_batch_failure_isolation_witness :
    (insert_properties upsertFailSecond [sampleRec, sampleRec, sampleRec] 1).inserted = 2
      ∧ (insert_properties upsertFailSecond [sampleRec, sampleRec, sampleRec] 1).failed = 1
      ∧ (insert_properties upsertFailSecond [sampleRec, sampleRec, sampleRec] 1).failed_records
        = [⟨(stripRecord sampleRec).property_id, "Insert failed: boom"⟩] := by
  have h := insert_properties_batch_failure_isolation upsertFailSecond
    [sampleRec, sampleRec, sampleRec] 1 "boom" [[sampleRec]] [[sampleRec]] [sampleRec]
    (by omega) (by simp)
    (by intro p hp
        simp only [List.mem_cons, List.not_mem_nil, or_false] at hp
        rcases hp with rfl | rfl | rfl <;> exact sampleRec_accepted)
    (by rfl)
    (by intro b; rfl)
    (by intro j b hj
        have hj1 : ¬ j = 1 := by simpa using hj
        simp [upsertFailSecond, hj1])
  refine ⟨?_, ?_, ?_⟩
  · rw [h.1]; rfl
  · rw [h.2.2.1]; rfl
  · rw [h.2.2.2]; rfl

/-! ## Existing-ID enumerator (Milvus_VectorDatabase.get_property_ids)

The stored identifiers are modelled as a list `store` sorted in strictly
ascending identifier order — claim C3's hypothesis that the enumerator's
pages partition the stored identifiers in ascending order.  A query
`property_id > last, limit pageSize, ascending` is then
`(store.filter (last < ·)).take pageSize`.  Identifiers are any type
with a decidable linear order: Python compares the `property_id`
strings, whose comparison is such an order; the witness instantiates
with naturals because string comparison does not reduce in the kernel.

The `while True` loop carries explicit fuel; `none` is the (unreachable
under the theorem's hypotheses) out-of-fuel marker standing for
divergence. -/

/-- One page of the cursor-paginated query. -/
def queryPage [LinearOrder α] (store : List α) (lastId : Option α) (limit : Nat) :
    List α :=
  (match lastId with
   | none => store
   | some l => store.filter (fun s => decide (l < s))).take limit

/-- `unique_ids.add(row["property_id"])`: the Python set is modelled as
a duplicate-free list in insertion order. -/
def dedupInsert [DecidableEq α] (acc : List α) (x : α) : List α :=
  if x ∈ acc then acc else acc ++ [x]

/-- The `while True` pagination loop: fetch a page; stop on an empty
page; add every row to the set and remember the last row as the cursor;
stop after a short page; otherwise continue. -/
def getIdsLoop [LinearOrder α] (store : List α) (pageSize : Nat) :
    Nat → Option α → List α → Option (List α)
  | 0, _, _ => none
  | fuel + 1, lastId, acc =>
    if (queryPage store lastId pageSize) = [] then some acc
    else
      if (queryPage store lastId pageSize).length < pageSize then
        some ((queryPage store lastId pageSize).foldl dedupInsert acc)
      else
        getIdsLoop store pageSize fuel
          ((queryPage store lastId pageSize).foldl (fun _ x => some x) lastId)
          ((queryPage store lastId pageSize).foldl dedupInsert acc)

/-- `Milvus_VectorDatabase.get_property_ids`:
`return sorted(list(unique_ids))`. -/
def get_property_ids [LinearOrder α] (store : List α) (pageSize : Nat) :
    Option (List α) :=
  (getIdsLoop store pageSize (store.length + 1) none []).map
    (fun ids => List.insertionSort (fun a b => a ≤ b) ids)

/-- The portion of the store strictly after the cursor. -/
def remList [LinearOrder α] (store : List α) : Option α → List α
  | none => store
  | some l => store.filter (fun s => decide (l < s))

theorem queryPage_eq_rem [LinearOrder α] (store : List α) (lastId : Option α)
    (limit : Nat) : queryPage store lastId limit = (remList store lastId).take limit := by
  cases lastId <;> rfl

theorem dedupInsert_foldl [DecidableEq α] :
    ∀ (l acc : List α), acc.Nodup →
      (l.foldl dedupInsert acc).Nodup
        ∧ (∀ x, x ∈ l.foldl dedupInsert acc ↔ x ∈ acc ∨ x ∈ l) := by
  intro l
  induction l with
  | nil => intro acc h; simpa using h
  | cons a l ih =>
    intro acc h
    have hstep : (dedupInsert acc a).Nodup
        ∧ ∀ x, x ∈ dedupInsert acc a ↔ x ∈ acc ∨ x = a := by
      unfold dedupInsert
      by_cases ha : a ∈ acc
      · rw [if_pos ha]
        exact ⟨h, fun x => ⟨fun hx => Or.inl hx,
          fun hx => hx.elim id (fun hxa => hxa ▸ ha)⟩⟩
      · rw [if_neg ha]
        constructor
        · simp [List.nodup_append, h, ha]
        · intro x; simp
    have ihh := ih (dedupInsert acc a) hstep.1
    refine ⟨ihh.1, fun x => ?_⟩
    rw [List.foldl_cons, ihh.2 x, hstep.2 x]
    simp [or_assoc]

theorem foldl_last_some (l : List α) (h : l ≠ []) :
    ∀ (init : Option α), l.foldl (fun _ x => some x) init = l.getLast? := by
  induction l with
  | nil => exact absurd rfl h
  | cons a l ih =>
    intro init
    cases l with
    | nil => rfl
    | cons b t =>
      rw [List.foldl_cons, ih (List.cons_ne_nil b t) (some a), List.getLast?_cons_cons]

theorem filter_gt_last [LinearOrder α] :
    ∀ (r : List α), r.Pairwise (· < ·) → ∀ (k : Nat) (L : α),
      (r.take k).getLast? = some L →
      r.filter (fun s => decide (L < s)) = r.drop k := by
  intro r
  induction r with
  | nil => intro _ k L hL; simp at hL
  | cons a t ih =>
    intro hs k L hL
    have hhead : ∀ x ∈ t, a < x := fun x hx => List.rel_of_pairwise_cons hs hx
    have htail : t.Pairwise (· < ·) := List.Pairwise.of_cons hs
    cases k with
    | zero => simp at hL
    | succ k =>
      rw [List.take_succ_cons] at hL
      by_cases ht : t.take k = []
      · rw [ht] at hL
        have haL : a = L := by simpa using hL
        have hfa : decide (L < a) = false := by simp [← haL]
        rw [List.filter_cons, hfa]
        simp only [Bool.false_eq_true, if_false]
        have hcase : k = 0 ∨ t = [] := by
          rcases List.take_eq_nil_iff.mp ht with h | h
          · left; exact h
          · right; exact h
        rcases hcase with rfl | rfl
        · rw [List.drop_succ_cons, List.drop_zero]
          apply List.filter_eq_self.mpr
          intro x hx
          have hax : a < x := hhead x hx
          simp [← haL, hax]
        · simp
      · obtain ⟨y, ys, hys⟩ := List.exists_cons_of_ne_nil ht
        rw [hys, List.getLast?_cons_cons] at hL
        rw [← hys] at hL
        have hL_mem : L ∈ t.take k := List.mem_of_mem_getLast? hL
        have haL : a < L := hhead L (List.mem_of_mem_take hL_mem)
        have hfa : decide (L < a) = false := by
          simp only [decide_eq_false_iff_not]
          exact fun hcon => absurd haL (lt_asymm hcon)
        rw [List.filter_cons, hfa]
        simp only [Bool.false_eq_true, if_false]
        rw [List.drop_succ_cons]
        exact ih htail k L hL

theorem remList_step [LinearOrder α] (store : List α) (hsort : store.Pairwise (· < ·))
    (lastId : Option α) (k : Nat) (L : α)
    (hL : ((remList store lastId).take k).getLast? = some L) :
    remList store (some L) = (remList store lastId).drop k := by
  cases lastId with
  | none => exact filter_gt_last store hsort k L hL
  | some l =>
    have hrem_sorted : (remList store (some l)).Pairwise (· < ·) :=
      List.Pairwise.sublist (List.filter_sublist store) hsort
    have hL_mem : L ∈ remList store (some l) :=
      List.mem_of_mem_take (List.mem_of_mem_getLast? hL)
    have hlL : l < L := by
      have h1 := List.of_mem_filter hL_mem
      simpa using h1
    have h1 : remList store (some L)
        = (remList store (some l)).filter (fun s => decide (L < s)) := by
      show store.filter (fun s => decide (L < s))
          = (store.filter (fun s => decide (l < s))).filter (fun s => decide (L < s))
      rw [List.filter_filter]
      apply List.filter_congr
      intro x hx
      by_cases hLx : L < x
      · have hlx : l < x := lt_trans hlL hLx
        simp [hLx, hlx]
      · simp [hLx]
    rw [h1]
    exact filter_gt_last _ hrem_sorted k L hL

theorem getIdsLoop_spec [LinearOrder α] (store : List α) (pageSize : Nat)
    (hps : pageSize ≠ 0) (hsort : store.Pairwise (· < ·)) :
    ∀ (fuel : Nat) (lastId : Option α) (acc : List α),
      (remList store lastId).length < fuel → acc.Nodup →
      ∃ out, getIdsLoop store pageSize fuel lastId acc = some out ∧ out.Nodup
        ∧ (∀ x, x ∈ out ↔ x ∈ acc ∨ x ∈ remList store lastId) := by
  intro fuel
  induction fuel with
  | zero => intro lastId acc h _; omega
  | succ fuel ih =>
    intro lastId acc hlen hnd
    have hq : queryPage store lastId pageSize = (remList store lastId).take pageSize :=
      queryPage_eq_rem store lastId pageSize
    by_cases hre : remList store lastId = []
    · refine ⟨acc, ?_, hnd, ?_⟩
      · unfold getIdsLoop
        rw [hq, hre]
        simp
      · intro x; rw [hre]; simp
    · have hresults_ne : ¬ queryPage store lastId pageSize = [] := by
        rw [hq]
        intro hcon
        rcases List.take_eq_nil_iff.mp hcon with h | h
        · exact hps h
        · exact hre h
      have hd := dedupInsert_foldl (queryPage store lastId pageSize) acc hnd
      by_cases hshort : (queryPage store lastId pageSize).length < pageSize
      · refine ⟨(queryPage store lastId pageSize).foldl dedupInsert acc, ?_, hd.1, ?_⟩
        · unfold getIdsLoop
          rw [if_neg hresults_ne, if_pos hshort]
        · intro x
          have htake : (remList store lastId).take pageSize = remList store lastId := by
            apply List.take_of_length_le
            have h2 := hshort
            rw [hq, List.length_take] at h2
            omega
          rw [hd.2 x, hq, htake]
      · have hlen_res : (queryPage store lastId pageSize).length = pageSize := by
          have h2 := hshort
          rw [hq, List.length_take] at h2 ⊢
          omega
        have hfold_last : (queryPage store lastId pageSize).foldl (fun _ x => some x) lastId
            = (queryPage store lastId pageSize).getLast? :=
          foldl_last_some _ hresults_ne lastId
        obtain ⟨L, hL⟩ : ∃ L, (queryPage store lastId pageSize).getLast? = some L := by
          cases hgl : (queryPage store lastId pageSize).getLast? with
          | none => exact absurd (List.getLast?_eq_none_iff.mp hgl) hresults_ne
          | some L => exact ⟨L, rfl⟩
        have hstep : remList store (some L) = (remList store lastId).drop pageSize := by
          apply remList_step store hsort lastId pageSize L
          rw [← hq]
          exact hL
        have hpage_le : pageSize ≤ (remList store lastId).length := by
          have h2 := hlen_res
          rw [hq, List.length_take] at h2
          omega
        have hlen' : (remList store (some L)).length < fuel := by
          rw [hstep, List.length_drop]
          omega
        obtain ⟨out, hloop, hnod, hmem⟩ :=
          ih (some L) ((queryPage store lastId pageSize).foldl dedupInsert acc) hlen' hd.1
        refine ⟨out, ?_, hnod, ?_⟩
        · unfold getIdsLoop
          rw [if_neg hresults_ne, if_neg hshort, hfold_last, hL]
          exact hloop
        · intro x
          rw [hmem x, hd.2 x, hstep, hq]
          have hsplit : x ∈ remList store lastId ↔
              x ∈ List.take pageSize (remList store lastId)
                ∨ x ∈ List.drop pageSize (remList store lastId) := by
            conv_lhs => rw [← List.take_append_drop pageSize (remList store lastId)]
            exact List.mem_append
          rw [hsplit]
          tauto

/-- Claim C3: on a store whose identifiers are strictly sorted (the
pages of the enumerator then partition them in ascending order) and for
any page size of at least 1, `get_property_ids` terminates (the fuelled
loop does not run out within `store.length + 1` iterations, returning
`some`), and the returned exclusion list is exactly the stored
identifiers: every identifier of every page occurs, none occurs twice. -/
theorem get_property_ids_complete [LinearOrder α] (store : List α) (pageSize : Nat)
    (hsort : store.Pairwise (· < ·)) (hps : pageSize ≠ 0) :
    get_property_ids store pageSize = some store := by
  obtain ⟨out, hloop, hnod, hmem⟩ := getIdsLoop_spec store pageSize hps hsort
    (store.length + 1) none [] (by simp [remList]) List.nodup_nil
  unfold get_property_ids
  rw [hloop]
  have hnods : store.Nodup := hsort.imp (fun h => ne_of_lt h)
  have hperm : List.Perm out store := (List.perm_ext_iff_of_nodup hnod hnods).mpr (fun a => by
    rw [hmem a]
    simp [remList])
  have hsorted_store : store.Sorted (fun a b => a ≤ b) :=
    hsort.imp (fun h => le_of_lt h)
  have heq : List.insertionSort (fun a b => a ≤ b) out = store :=
    List.eq_of_perm_of_sorted
      ((List.perm_insertionSort (fun a b => a ≤ b) out).trans hperm)
      (List.sorted_insertionSort (fun a b => a ≤ b) out) hsorted_store
  rw [Option.map_some', heq]

/-- Witness for `get_property_ids_complete`: the claim's own example,
identifiers `{a, b, c}` (as 0, 1, 2) with page size 2, giving pages
`[a, b]` and `[c]`. -/
theorem get_property_ids_complete_witness :
    get_property_ids [0, 1, 2] 2 = some ([0, 1, 2] : List Nat)
      ∧ ([0, 1, 2] : List Nat).Pairwise (· < ·) :=
  ⟨get_property_ids_complete [0, 1, 2] 2 (by decide) (by omega), by decide⟩

/-! ## Batched encoding (EmbeddingService.encode_batch and
_process_batch_parallel)

`encode_batch` splits the texts into chunks of `batchSize` and calls
`_process_batch_parallel` on each chunk, extending `all_embeddings` in
chunk order.  Within a chunk, one future per text is submitted; as each
future completes, its result is written at the future's own submission
index (`batch_embeddings[idx] = embedding`), never at a completion rank.
The model takes the completion order of each chunk as an arbitrary list
`orders bn` of indices and proves the result independent of it.

Oracles: `enc t` is the (successful) `_encode_single` result for text
`t`; `crash g` says whether the request for the text at global position
`g` raised or timed out at `future.result`, in which case the except
clause writes the zero vector of the configured dimension.  A leftover
`None` slot (an index never completed) is also replaced by the zero
vector, as in the final loop of `_process_batch_parallel`. -/

/-- The value `_process_batch_parallel` writes for local index `i` of a
chunk starting at global position `base` (the unreachable out-of-range
lookup yields the zero vector; the executor only submits in-range
indices). -/
def itemValue (enc : String → List ℚ) (crash : Nat → Bool) (dim base : Nat)
    (batch : List String) (i : Nat) : List ℚ :=
  if crash (base + i) then zeroVec dim else (batch[i]?).elim (zeroVec dim) enc

/-- `batch_embeddings[idx] = ...` performed in completion order. -/
def writeResults (vals : Nat → List ℚ) (order : List Nat)
    (init : List (Option (List ℚ))) : List (Option (List ℚ)) :=
  order.foldl (fun acc i => acc.set i (some (vals i))) init

/-- `EmbeddingService._process_batch_parallel`. -/
def _process_batch_parallel (enc : String → List ℚ) (crash : Nat → Bool)
    (dim base : Nat) (batch : List String) (order : List Nat) : List (List ℚ) :=
  (writeResults (itemValue enc crash dim base batch) order
      (List.replicate batch.length none)).map (fun r => r.getD (zeroVec dim))

/-- The chunk loop of `encode_batch` (`bn` is the batch number, `base`
the global position of the chunk's first text). -/
def encodeBatchLoop (enc : String → List ℚ) (crash : Nat → Bool) (dim : Nat)
    (orders : Nat → List Nat) : List (List String) → Nat → Nat → List (List ℚ)
  | [], _, _ => []
  | ch :: rest, bn, base =>
    _process_batch_parallel enc crash dim base ch (orders bn)
      ++ encodeBatchLoop enc crash dim orders rest (bn + 1) (base + ch.length)

/-- `EmbeddingService.encode_batch`. -/
def encode_batch (enc : String → List ℚ) (crash : Nat → Bool) (dim : Nat)
    (orders : Nat → List Nat) (texts : List String) (batchSize : Nat) :
    List (List ℚ) :=
  encodeBatchLoop enc crash dim orders (chunkList batchSize texts) 0 0

/-- Reference result: one vector per text, in text order; position `g`
is the zero vector when request `g` failed, else the encoding of text
`g`. -/
def batchSpec (enc : String → List ℚ) (crash : Nat → Bool) (dim : Nat) :
    Nat → List String → List (List ℚ)
  | _, [] => []
  | base, t :: ts =>
      (if crash base then zeroVec dim else enc t) :: batchSpec enc crash dim (base + 1) ts

theorem batchSpec_length (enc : String → List ℚ) (crash : Nat → Bool) (dim : Nat) :
    ∀ (l : List String) (base : Nat),
      (batchSpec enc crash dim base l).length = l.length := by
  intro l
  induction l with
  | nil => intro base; rfl
  | cons t ts ih => intro base; simp [batchSpec, ih]

theorem batchSpec_getElem (enc : String → List ℚ) (crash : Nat → Bool) (dim : Nat) :
    ∀ (l : List String) (base j : Nat) (t : String), l[j]? = some t →
      (batchSpec enc crash dim base l)[j]?
        = some (if crash (base + j) then zeroVec dim else enc t) := by
  intro l
  induction l with
  | nil => intro base j t ht; simp at ht
  | cons s ts ih =>
    intro base j t ht
    cases j with
    | zero =>
      simp only [List.getElem?_cons_zero, Option.some.injEq] at ht
      subst ht
      simp [batchSpec]
    | succ j =>
      simp only [List.getElem?_cons_succ] at ht
      have := ih (base + 1) j t ht
      rw [batchSpec, List.getElem?_cons_succ, this]
      have harith : base + 1 + j = base + (j + 1) := by omega
      rw [harith]

theorem batchSpec_append (enc : String → List ℚ) (crash : Nat → Bool) (dim : Nat) :
    ∀ (l1 l2 : List String) (base : Nat),
      batchSpec enc crash dim base (l1 ++ l2)
        = batchSpec enc crash dim base l1
          ++ batchSpec enc crash dim (base + l1.length) l2 := by
  intro l1
  induction l1 with
  | nil => intro l2 base; simp [batchSpec]
  | cons t ts ih =>
    intro l2 base
    simp only [List.cons_append, batchSpec, List.append_eq, ih, List.length_cons]
    have harith : base + 1 + ts.length = base + (ts.length + 1) := by omega
    rw [harith]

theorem writeResults_getElem (vals : Nat → List ℚ) :
    ∀ (order : List Nat) (init : List (Option (List ℚ))) (j : Nat),
      (writeResults vals order init)[j]?
        = if j ∈ order ∧ j < init.length then some (some (vals j)) else init[j]? := by
  intro order
  induction order with
  | nil => intro init j; simp [writeResults]
  | cons i rest ih =>
    intro init j
    have hstep : writeResults vals (i :: rest) init
        = writeResults vals rest (init.set i (some (vals i))) := rfl
    rw [hstep, ih, List.length_set]
    by_cases hjr : j ∈ rest
    · by_cases hjl : j < init.length
      · simp [hjr, hjl, List.mem_cons]
      · have h1 : init[j]? = none := List.getElem?_eq_none (by omega)
        have h2 : (init.set i (some (vals i)))[j]? = none :=
          List.getElem?_eq_none (by rw [List.length_set]; omega)
        simp [hjr, hjl, h1, h2]
    · rw [if_neg (fun hc => hjr hc.1)]
      rw [List.getElem?_set]
      by_cases hij : i = j
      · subst hij
        by_cases hil : i < init.length
        · simp [hil, List.mem_cons]
        · have h1 : init[i]? = none := List.getElem?_eq_none (by omega)
          simp [hil, List.mem_cons, h1, hjr]
      · have hji : ¬ (j = i ∨ j ∈ rest) := by
          intro hc
          rcases hc with hc | hc
          · exact hij hc.symm
          · exact hjr hc
        simp [hij, List.mem_cons, hji]

theorem pbp_eq_batchSpec (enc : String → List ℚ) (crash : Nat → Bool)
    (dim base : Nat) (batch : List String) (order : List Nat)
    (horder : ∀ j, j ∈ order ↔ j < batch.length) :
    _process_batch_parallel enc crash dim base batch order
      = batchSpec enc crash dim base batch := by
  apply List.ext_getElem?
  intro j
  rw [_process_batch_parallel, List.getElem?_map, writeResults_getElem,
    List.length_replicate]
  by_cases hj : j < batch.length
  · have hmem : j ∈ order := (horder j).mpr hj
    rw [if_pos ⟨hmem, hj⟩]
    obtain ⟨t, ht⟩ : ∃ t, batch[j]? = some t := by
      rw [List.getElem?_eq_getElem hj]
      exact ⟨batch[j], rfl⟩
    rw [batchSpec_getElem enc crash dim batch base j t ht]
    simp [itemValue, ht]
  · have hmem : ¬ (j ∈ order ∧ j < batch.length) := fun hc => hj hc.2
    rw [if_neg hmem]
    have h1 : (List.replicate batch.length (none : Option (List ℚ)))[j]? = none :=
      List.getElem?_eq_none (by simpa using hj)
    have h2 : (batchSpec enc crash dim base batch)[j]? = none :=
      List.getElem?_eq_none (by rw [batchSpec_length]; omega)
    rw [h1, h2]
    rfl

theorem encodeBatchLoop_eq (enc : String → List ℚ) (crash : Nat → Bool) (dim : Nat)
    (orders : Nat → List Nat) :
    ∀ (chunks : List (List String)) (bn base : Nat),
      (∀ k ch, chunks[k]? = some ch → ∀ j, j ∈ orders (bn + k) ↔ j < ch.length) →
      encodeBatchLoop enc crash dim orders chunks bn base
        = batchSpec enc crash dim base chunks.flatten := by
  intro chunks
  induction chunks with
  | nil => intro bn base _; rfl
  | cons ch rest ih =>
    intro bn base hord
    rw [encodeBatchLoop, List.flatten_cons, batchSpec_append]
    congr 1
    · apply pbp_eq_batchSpec
      intro j
      have h0 := hord 0 ch (by simp)
      simpa using h0 j
    · apply ih (bn + 1) (base + ch.length)
      intro k c hk j
      have harith : bn + 1 + k = bn + (k + 1) := by omega
      rw [harith]
      exact hord (k + 1) c (by simpa using hk) j

/-- Claim C2: for any batch size of at least 1 and any completion
orders that complete exactly the submitted futures of each chunk, if
the request at position `i` fails or times out and every other request
succeeds, then `encode_batch` returns exactly one vector per input text
in input order: position `i` holds the zero vector of the configured
dimension and every other position `j` holds the encoding of text `j` —
placement is by positional index, never by completion order. -/
theorem encode_batch_positional_integrity (enc : String → List ℚ) (crash : Nat → Bool)
    (dim : Nat) (orders : Nat → List Nat) (texts : List String) (batchSize i : Nat)
    (hbs : batchSize ≠ 0)
    (horders : ∀ k ch, (chunkList batchSize texts)[k]? = some ch →
        ∀ j, j ∈ orders k ↔ j < ch.length)
    (hi : i < texts.length)
    (hci : crash i = true)
    (hcj : ∀ j, j ≠ i → crash j = false) :
    (encode_batch enc crash dim orders texts batchSize).length = texts.length
      ∧ (encode_batch enc crash dim orders texts batchSize)[i]? = some (zeroVec dim)
      ∧ ∀ j t, j ≠ i → texts[j]? = some t →
          (encode_batch enc crash dim orders texts batchSize)[j]? = some (enc t) := by
  have heq : encode_batch enc crash dim orders texts batchSize
      = batchSpec enc crash dim 0 texts := by
    unfold encode_batch
    rw [encodeBatchLoop_eq enc crash dim orders (chunkList batchSize texts) 0 0
      (fun k ch hk j => by simpa using horders k ch hk j),
      chunkList_join batchSize hbs texts]
  refine ⟨by rw [heq, batchSpec_length], ?_, ?_⟩
  · obtain ⟨t, ht⟩ : ∃ t, texts[i]? = some t := by
      rw [List.getElem?_eq_getElem hi]
      exact ⟨texts[i], rfl⟩
    rw [heq, batchSpec_getElem enc crash dim texts 0 i t ht]
    rw [Nat.zero_add, hci]
    simp
  · intro j t hji ht
    rw [heq, batchSpec_getElem enc crash dim texts 0 j t ht]
    rw [Nat.zero_add, hcj j hji]
    simp

/-- Completion orders for the witness: the two futures of the first
chunk complete in reverse submission order; the single future of the
second chunk completes alone. -/
def ordersW : Nat → List Nat := fun bn => if bn = 0 then [1, 0] else [0]

/-- Witness for `encode_batch_positional_integrity`: three texts in
chunks of 2, request 1 forced to fail, out-of-submission-order
completion. -/
theorem encode_batch_positional_integrity_witness :
    (encode_batch (fun t => [(t.length : ℚ)]) (fun j => decide (j = 1)) 3 ordersW
        ["aaaaaaaaaa", "bbbbbbbbbb", "cccccccccc"] 2).length = 3
      ∧ (encode_batch (fun t => [(t.length : ℚ)]) (fun j => decide (j = 1)) 3 ordersW
          ["aaaaaaaaaa", "bbbbbbbbbb", "cccccccccc"] 2)[1]? = some (zeroVec 3)
      ∧ (encode_batch (fun t => [(t.length : ℚ)]) (fun j => decide (j = 1)) 3 ordersW
          ["aaaaaaaaaa", "bbbbbbbbbb", "cccccccccc"] 2)[0]?
        = some [("aaaaaaaaaa".length : ℚ)]
      ∧ (encode_batch (fun t => [(t.length : ℚ)]) (fun j => decide (j = 1)) 3 ordersW
          ["aaaaaaaaaa", "bbbbbbbbbb", "cccccccccc"] 2)[2]?
        = some [("cccccccccc".length : ℚ)] := by
  have hch : chunkList 2 ["aaaaaaaaaa", "bbbbbbbbbb", "cccccccccc"]
      = [["aaaaaaaaaa", "bbbbbbbbbb"], ["cccccccccc"]] := rfl
  have h := encode_batch_positional_integrity (fun t => [(t.length : ℚ)])
    (fun j => decide (j = 1)) 3 ordersW ["aaaaaaaaaa", "bbbbbbbbbb", "cccccccccc"] 2 1
    (by omega)
    (by intro k ch hk j
        rw [hch] at hk
        rcases k with _ | _ | k
        · simp only [List.getElem?_cons_zero, Option.some.injEq] at hk
          subst hk
          simp [ordersW]
          try omega
        · simp only [List.getElem?_cons_succ, List.getElem?_cons_zero,
            Option.some.injEq] at hk
          subst hk
          simp [ordersW]
          try omega
        · simp at hk)
    (by decide) (by decide)
    (by intro j hj; simp [hj])
  exact ⟨h.1, h.2.1, h.2.2 0 _ (by omega) rfl, h.2.2 2 _ (by omega) rfl⟩

/-! ## Transform stage and orchestrator (PropertyVectorBuilder)

`transform_properties` builds `texts` and `valid_props` by running each
candidate through `create_searchable_text` (an oracle `preproc`: a
raised exception is logged and the record skipped; a returned text is
skipped when falsy or shorter than 10 characters), then calls
`self.embedder.encode_batch(texts, is_query=False, batch_size=...,
normalize=True)`.  `EmbeddingService.encode_batch` is declared as
`encode_batch(self, texts, normalize=True, batch_size=100)` — it has no
`is_query` parameter, so Python raises
`TypeError: encode_batch() got an unexpected keyword argument` at the
call site whenever the call is reached (that is, whenever at least one
text survived).  The keyword binding is modelled explicitly below; the
injected embedder is the callable `encB`, and the zip/attach code after
the call (dead in the current source) is modelled behind the binding
check. -/

/-- The parameters of `EmbeddingService.encode_batch` (after `self`). -/
def encodeBatchParamNames : List String := ["texts", "normalize", "batch_size"]

/-- The keywords passed at the call site in `transform_properties`
(after the positional `texts`). -/
def transformCallKeywords : List String := ["is_query", "batch_size", "normalize"]

/-- Python keyword binding succeeds iff every passed keyword is a
declared parameter. -/
def encodeBatchCallOk : Bool :=
  transformCallKeywords.all (fun k => encodeBatchParamNames.contains k)

/-- The text-preparation loop of `transform_properties`: the surviving
`(valid_prop, text)` pairs, in order. -/
def collectTexts (preproc : PropRecord → Except String String)
    (props : List PropRecord) : List (PropRecord × String) :=
  props.filterMap (fun p =>
    match preproc p with
    | .error _ => none
    | .ok t => if t = "" ∨ t.length < 10 then none else some (p, t))

/-- `PropertyVectorBuilder.transform_properties`. -/
def transform_properties (preproc : PropRecord → Except String String)
    (encB : List String → List (List ℚ)) (properties : List PropRecord)
    (embed_batch_size : Nat) : Except String (List PropRecord) :=
  if (collectTexts preproc properties).map Prod.snd = [] then Except.ok []
  else if encodeBatchCallOk then
    Except.ok
      (((collectTexts preproc properties).zip
          (encB ((collectTexts preproc properties).map Prod.snd))).map
        (fun pe => { pe.1.1 with text := pe.1.2, embedding := pe.2 }))
  else Except.error "TypeError: encode_batch() got an unexpected keyword argument"

/-- The dict returned by `process_store_to_vdb`: `failed_records` is
optional because the zero-candidate early return builds a dict without
that key. -/
structure RunSummary where
  total : Nat
  inserted : Nat
  failed : Nat
  failed_records : Option (List FailedRec)
deriving DecidableEq, Repr

/-- `PropertyVectorBuilder.process_store_to_vdb`: enumerate existing
ids (`vdbIds`, the enumerator's result), fetch candidates excluding
them, early-return a three-field dict when there are none, otherwise
transform (which may raise) and load the transformed records through
`insert_properties`.  `save_failed_records` and `print_summary` only
log. -/
def process_store_to_vdb (preproc : PropRecord → Except String String)
    (encB : List String → List (List ℚ))
    (upsert : Nat → List PropRecord → Except String (Option Nat))
    (fetch : List String → Option Nat → List PropRecord)
    (vdbIds : List String) (limit : Option Nat) (batch_size : Nat) :
    Except String RunSummary :=
  if fetch vdbIds limit = [] then Except.ok ⟨0, 0, 0, none⟩
  else
    match transform_properties preproc encB (fetch vdbIds limit) batch_size with
    | .error err => Except.error err
    | .ok transformed =>
        Except.ok
          ⟨(insert_properties upsert transformed batch_size).total,
           (insert_properties upsert transformed batch_size).inserted,
           (insert_properties upsert transformed batch_size).failed,
           some (insert_properties upsert transformed batch_size).failed_records⟩

/-- Claim C1 is violated by the code on two counts, shown here at
concrete runs with both clients connected.  First, the
zero-eligible-candidates early return builds only the three fields
`total`, `inserted`, `failed` — `failed_records` is absent.  Second, on
any run with at least one eligible candidate (here one candidate whose
searchable text has 12 characters), the call
`encode_batch(texts, is_query=False, ...)` raises `TypeError` because
`EmbeddingService.encode_batch` accepts no `is_query` keyword, and
nothing catches it: the error propagates out of `process_store_to_vdb`
instead of a RunSummary being returned. -/
theorem process_store_to_vdb_code_bug :
    process_store_to_vdb (fun _ => Except.ok "") (fun _ => [])
        (fun _ _ => Except.ok none) (fun _ _ => []) [] none 1000
      = Except.ok ⟨0, 0, 0, none⟩
    ∧ process_store_to_vdb (fun _ => Except.ok "0123456789ab")
        (fun ts => ts.map (fun _ => zeroVec 768))
        (fun _ _ => Except.ok none) (fun _ _ => [sampleRec]) [] none 1000
      = Except.error "TypeError: encode_batch() got an unexpected keyword argument" :=
  ⟨rfl, rfl⟩

/-- Claim C9: a candidate whose searchable text comes back empty or
shorter than 10 characters is skipped by the text-preparation loop
before anything else happens: the run behaves exactly as if the record
were absent — it reaches neither the embedding call nor the transformed
output, and it is recorded in no failure list and no count. -/
theorem transform_skips_short_text (preproc : PropRecord → Except String String)
    (encB : List String → List (List ℚ)) (ebs : Nat)
    (xs ys : List PropRecord) (r : PropRecord) (t : String)
    (hp : preproc r = Except.ok t) (hshort : t = "" ∨ t.length < 10) :
    transform_properties preproc encB (xs ++ r :: ys) ebs
      = transform_properties preproc encB (xs ++ ys) ebs := by
  have key : collectTexts preproc (xs ++ r :: ys) = collectTexts preproc (xs ++ ys) := by
    unfold collectTexts
    rw [List.filterMap_append, List.filterMap_append, List.filterMap_cons]
    simp only [hp]
    rw [if_pos hshort]
  unfold transform_properties
  rw [key]

/-- Witness for `transform_skips_short_text`: a record whose searchable
text is the 5-character string "short" contributes nothing to the
transform of a two-record candidate list. -/
theorem transform_skips_short_text_witness :
    transform_properties (fun _ => Except.ok "short") (fun _ => [])
        ([] ++ sampleRec :: [badRec]) 64
      = transform_properties (fun _ => Except.ok "short") (fun _ => [])
        ([] ++ [badRec]) 64 :=
  transform_skips_short_text (fun _ => Except.ok "short") (fun _ => []) 64
    [] [badRec] sampleRec "short" rfl (Or.inr (by decide))
